import Mathlib

/-!
Shipping-fee protection server (`src/server.js`).

A shallow embedding of the two request handlers of `server.js`
(`GET /protection/price`, `POST /protection/update`), of the remote update
`updateVariantPrice` and of the keyed gate `withLock`, followed by the
properties proved about them.

Modelling conventions.

* A JavaScript Number is read exactly: a finite Number is a rational `ℚ`, the
  three non-finite Numbers are separate constructors.  No rounding to binary64
  and no overflow take place; `-0` and `0` are the same value.
* The built-ins `parseFloat` and `Number.prototype.toFixed` are modelled on
  text, following ECMA-262.
* `withLock` is an `async` function.  It is modelled as a transition system
  whose atomic steps are the program fragments between two `await`s, run by a
  single-threaded cooperative scheduler.
-/

namespace ShippingFee

/-! ## JavaScript values -/

/-- A JavaScript Number: `NaN`, `+Infinity`, `-Infinity` or a finite value. -/
inductive JSNum where
  | nan
  | posInf
  | negInf
  | fin (q : ℚ)
  deriving DecidableEq

namespace JSNum

/-- The relational operator `x < y` on Numbers; a comparison with `NaN` is false. -/
def lt : JSNum → JSNum → Bool
  | nan, _ => false
  | _, nan => false
  | posInf, _ => false
  | _, negInf => false
  | negInf, _ => true
  | fin _, posInf => true
  | fin a, fin b => decide (a < b)

/-- The global function `isNaN` on a Number. -/
def isNaN : JSNum → Bool
  | nan => true
  | _ => false

/-- The product of an infinity with a finite factor of the given sign. -/
def ofSign (s : ℚ) : JSNum :=
  if s = 0 then nan else if 0 < s then posInf else negInf

/-- The operator `x * y` on Numbers. -/
def mul : JSNum → JSNum → JSNum
  | nan, _ => nan
  | _, nan => nan
  | fin a, fin b => fin (a * b)
  | fin a, posInf => ofSign a
  | fin a, negInf => ofSign (-a)
  | posInf, fin b => ofSign b
  | negInf, fin b => ofSign (-b)
  | posInf, posInf => posInf
  | posInf, negInf => negInf
  | negInf, posInf => negInf
  | negInf, negInf => posInf

/-- The operator `x + y` on Numbers. -/
def add : JSNum → JSNum → JSNum
  | nan, _ => nan
  | _, nan => nan
  | fin a, fin b => fin (a + b)
  | posInf, negInf => nan
  | negInf, posInf => nan
  | posInf, _ => posInf
  | _, posInf => posInf
  | negInf, _ => negInf
  | _, negInf => negInf

end JSNum

/-- The JavaScript values that reach the handlers: query parameters and JSON
data.  An object is the list of its own properties; arrays are not modelled. -/
inductive JSVal where
  | undefined
  | null
  | bool (b : Bool)
  | num (n : JSNum)
  | str (s : String)
  | obj (fields : List (String × JSVal))

/-- An `Error` object, identified by its `message`. -/
structure JSError where
  message : String
  deriving DecidableEq

/-- The message of the `TypeError` raised by reading property `name` of
`undefined` or `null`; the name stands in single quotes (code point 39). -/
def cannotRead (base name : String) : String :=
  "Cannot read properties of " ++ base ++ " (reading " ++
    String.singleton (Char.ofNat 39) ++ name ++ String.singleton (Char.ofNat 39) ++ ")"

/-- Property read `v.name`: a `TypeError` on `undefined` and `null`, the own
property of an object if present, `undefined` otherwise. -/
def getProp (v : JSVal) (name : String) : Except JSError JSVal :=
  match v with
  | .undefined => .error ⟨cannotRead "undefined" name⟩
  | .null => .error ⟨cannotRead "null" name⟩
  | .obj fields => .ok ((fields.lookup name).getD .undefined)
  | _ => .ok .undefined

/-! ## `parseFloat` -/

/-- White space and line terminators, as skipped by `parseFloat`. -/
def isWhiteSpace (c : Char) : Bool :=
  [9, 10, 11, 12, 13, 32, 0xA0, 0x1680, 0x2000, 0x2001, 0x2002, 0x2003, 0x2004,
    0x2005, 0x2006, 0x2007, 0x2008, 0x2009, 0x200A, 0x2028, 0x2029, 0x202F,
    0x205F, 0x3000, 0xFEFF].contains c.toNat

/-- The number written by a run of decimal digits. -/
def digitsVal (cs : List Char) : ℕ :=
  cs.foldl (fun acc c => 10 * acc + (c.toNat - 48)) 0

/-- The optional exponent part at the head of `cs`: `e` or `E`, an optional
sign and at least one digit.  Without such a part the exponent is `0`. -/
def scanExponent (cs : List Char) : ℤ :=
  match cs with
  | [] => 0
  | c :: rest =>
    if c = 'e' ∨ c = 'E' then
      match rest with
      | [] => 0
      | d :: rest2 =>
        if d = '+' then
          (if rest2.takeWhile Char.isDigit = [] then 0
            else (digitsVal (rest2.takeWhile Char.isDigit) : ℤ))
        else if d = '-' then
          (if rest2.takeWhile Char.isDigit = [] then 0
            else - (digitsVal (rest2.takeWhile Char.isDigit) : ℤ))
        else
          (if rest.takeWhile Char.isDigit = [] then 0
            else (digitsVal (rest.takeWhile Char.isDigit) : ℤ))
    else 0

/-- An unsigned decimal literal read off the head of a text. -/
structure Decimal where
  intPart : ℕ
  fracPart : ℕ
  fracLen : ℕ
  exponent : ℤ
  deriving DecidableEq

/-- The value of a decimal literal. -/
def Decimal.value (d : Decimal) : ℚ :=
  ((d.intPart : ℚ) + (d.fracPart : ℚ) / 10 ^ d.fracLen) * 10 ^ d.exponent

/-- The longest prefix of `cs` that is an unsigned decimal literal
(`digits . digits? exp?`, `. digits exp?` or `digits exp?`), if there is one. -/
def scanDecimal (cs : List Char) : Option Decimal :=
  let ip := cs.takeWhile Char.isDigit
  match cs.dropWhile Char.isDigit with
  | [] => if ip = [] then none else some ⟨digitsVal ip, 0, 0, 0⟩
  | c :: r2 =>
    if c = '.' then
      let fp := r2.takeWhile Char.isDigit
      if ip = [] ∧ fp = [] then none
      else some ⟨digitsVal ip, digitsVal fp, fp.length,
        scanExponent (r2.dropWhile Char.isDigit)⟩
    else if ip = [] then none
    else some ⟨digitsVal ip, 0, 0, scanExponent (c :: r2)⟩

/-- What the head of a text spells: no number, a signed `Infinity`, or a signed
decimal literal. -/
inductive Literal where
  | notNumeric
  | infinity (neg : Bool)
  | decimal (neg : Bool) (d : Decimal)
  deriving DecidableEq

/-- The longest prefix of `cs` that is an unsigned literal, with the sign
`neg` read before it. -/
def scanUnsigned (neg : Bool) (cs : List Char) : Literal :=
  if "Infinity".toList.isPrefixOf cs then .infinity neg
  else
    match scanDecimal cs with
    | none => .notNumeric
    | some d => .decimal neg d

/-- The longest numeric prefix of a text, after the leading white space. -/
def scanLiteral (cs : List Char) : Literal :=
  match cs.dropWhile isWhiteSpace with
  | [] => .notNumeric
  | c :: rest =>
    if c = '-' then scanUnsigned true rest
    else if c = '+' then scanUnsigned false rest
    else scanUnsigned false (c :: rest)

/-- The Number a literal denotes; `NaN` when there is no literal. -/
def Literal.value : Literal → JSNum
  | .notNumeric => .nan
  | .infinity neg => if neg then .negInf else .posInf
  | .decimal neg d => if neg then .fin (-d.value) else .fin d.value

/-- The Number denoted by the longest numeric prefix of a text. -/
def parseFloatChars (cs : List Char) : JSNum := (scanLiteral cs).value

/-- The global function `parseFloat`.  Its argument is first converted to a
string: the text `undefined`, `null`, `true`, `false` and `[object Object]`
has no numeric prefix, and the text of a Number reads back as that Number. -/
def parseFloat : JSVal → JSNum
  | .str s => parseFloatChars s.toList
  | .num n => n
  | _ => .nan

/-! ## `Number.prototype.toFixed(2)` -/

/-- The character of a decimal digit. -/
def digitChar (d : ℕ) : Char :=
  match d with
  | 0 => '0' | 1 => '1' | 2 => '2' | 3 => '3' | 4 => '4'
  | 5 => '5' | 6 => '6' | 7 => '7' | 8 => '8' | _ => '9'

/-- Decimal digits of `n`, most significant first, in front of `acc`. -/
def natToCharsAux : ℕ → ℕ → List Char → List Char
  | 0, _, acc => acc
  | fuel + 1, n, acc =>
    if n < 10 then digitChar n :: acc
    else natToCharsAux fuel (n / 10) (digitChar (n % 10) :: acc)

/-- The decimal text of a natural number. -/
def natToChars (n : ℕ) : List Char := natToCharsAux (n + 1) n []

/-- The number of cents nearest to `q ≥ 0`; of two nearest, the larger. -/
def nearestCents (q : ℚ) : ℕ := ⌊q * 100 + 1 / 2⌋.toNat

/-- Fixed-point text with two fraction digits of a non-negative rational. -/
def fixed2Chars (q : ℚ) : List Char :=
  natToChars (nearestCents q / 100) ++
    ['.', digitChar (nearestCents q / 10 % 10), digitChar (nearestCents q % 10)]

/-- The method `x.toFixed(2)`: the text of the multiple of `0.01` nearest to
`x` (of two nearest, the one larger in magnitude), with exactly two fraction
digits.  From `10^21` on the built-in prints the Number in exponent form
instead; a binary64 value that large is a whole number, so both texts denote
the same Number and the fixed-point text is kept here. -/
def toFixed2 : JSNum → String
  | .nan => "NaN"
  | .posInf => "Infinity"
  | .negInf => "-Infinity"
  | .fin q => if q < 0 then String.mk ('-' :: fixed2Chars (-q)) else String.mk (fixed2Chars q)

/-! ## Configuration (lines 10–16) -/

def SHOPIFY_DOMAIN : String := "play-farhan.myshopify.com"
def API_VERSION : String := "2025-07"
def PROTECTION_VARIANT_DYNAMIC : String := "45626932789401"
def PROTECTION_THRESHOLD : JSNum := .fin 100
def PROTECTION_PERCENT : JSNum := .fin (3 / 100)
def PROTECTION_BASE_INCREMENT : JSNum := .fin (1 / 100)

/-! ## Responses -/

/-- The JSON bodies the handlers send: `{ok: true}`, `{error}`, `{price}` and
`{updated: true, price}`.  The price is kept as the Number handed to
`res.json`, which writes a non-finite Number as `null`. -/
inductive Body where
  | ok
  | error (message : String)
  | price (p : JSNum)
  | updated (p : JSNum)
  deriving DecidableEq

/-- An HTTP response: status code and JSON body. -/
structure Response where
  status : ℕ
  body : Body
  deriving DecidableEq

/-! ## `GET /protection/price` (lines 82–99) -/

/-- The price computed by the GET handler from a subtotal that passed the
check (lines 90–95). -/
def quotePrice (subtotal : JSNum) : JSNum :=
  if subtotal.lt PROTECTION_THRESHOLD then .fin (217 / 100)
  else parseFloat (.str (toFixed2
    ((subtotal.mul PROTECTION_PERCENT).add PROTECTION_BASE_INCREMENT)))

/-- The handler of `GET /protection/price`; `query` is `req.query.subtotal`,
`undefined` when the parameter is missing. -/
def getProtectionPrice (query : JSVal) : Response :=
  let subtotal := parseFloat query
  if subtotal.isNaN || subtotal.lt (.fin 0) then
    ⟨400, .error "Invalid subtotal"⟩
  else
    ⟨200, .price (quotePrice subtotal)⟩

/-! ## The keyed gate `withLock` (lines 22–33) -/

/-- The keys of the lock table. -/
abbrev Key := String

/-- The module-level `locks` Map, as its lookup function: `none` when the key
has no entry. -/
abbrev LockTable := Key → Option Bool

namespace LockTable

/-- The Map `new Map()`. -/
def empty : LockTable := fun _ => none

/-- The call `locks.set(key, v)`. -/
def set (locks : LockTable) (key : Key) (v : Bool) : LockTable :=
  fun k => if k = key then some v else locks k

/-- The call `locks.delete(key)`. -/
def delete (locks : LockTable) (key : Key) : LockTable :=
  fun k => if k = key then none else locks k

/-- Whether `locks.get(key)` is truthy, the condition of the `while` loop. -/
def held (locks : LockTable) (key : Key) : Bool :=
  match locks key with
  | some true => true
  | _ => false

end LockTable

/-- Where a call of `withLock` stands between two atomic steps. -/
inductive Pc (ε α : Type) where
  /-- suspended in `await new Promise((r) => setTimeout(r, 50))` -/
  | polling
  /-- after `locks.set(key, true)`, suspended in `await fn()` -/
  | critical
  /-- after the `finally` block: returned the value or rethrew the error of `fn` -/
  | done (outcome : Except ε α)

/-- Whether the call is inside its critical section. -/
def Pc.isCritical {ε α : Type} : Pc ε α → Bool
  | .critical => true
  | _ => false

/-- One call `withLock(key, fn)` in flight.  The critical section `fn` yields a
value or throws; it does not touch the lock table itself. -/
structure Task (ε α : Type) where
  key : Key
  fn : Unit → Except ε α
  pc : Pc ε α

/-- The process: the lock table and every call of `withLock` made so far. -/
structure State (ε α : Type) where
  locks : LockTable
  tasks : List (Task ε α)

/-- The atomic steps the scheduler can run: a new call of `withLock`, the
timer of a polling call firing, the critical section of a call settling. -/
inductive Action (ε α : Type) where
  | call (key : Key) (fn : Unit → Except ε α)
  | wake (i : ℕ)
  | settle (i : ℕ)

/-- The loop head `while (locks.get(key))` with what follows it up to the next
`await`: suspend in the timer if the key is held, else `locks.set(key, true)`
and start `fn`. -/
def enter {ε α : Type} (locks : LockTable) (key : Key) : LockTable × Pc ε α :=
  if locks.held key then (locks, .polling) else (locks.set key true, .critical)

/-- One atomic step.  An action that does not apply leaves the state as it is. -/
def step {ε α : Type} (s : State ε α) : Action ε α → State ε α
  | .call key fn =>
    ⟨(enter (ε := ε) (α := α) s.locks key).1,
      s.tasks ++ [⟨key, fn, (enter s.locks key).2⟩]⟩
  | .wake i =>
    match s.tasks[i]? with
    | some t =>
      match t.pc with
      | .polling =>
        ⟨(enter (ε := ε) (α := α) s.locks t.key).1,
          s.tasks.set i ⟨t.key, t.fn, (enter s.locks t.key).2⟩⟩
      | _ => s
    | none => s
  | .settle i =>
    match s.tasks[i]? with
    | some t =>
      match t.pc with
      | .critical => ⟨s.locks.delete t.key, s.tasks.set i ⟨t.key, t.fn, .done (t.fn ())⟩⟩
      | _ => s
    | none => s

/-- The state of the process before any request: an empty lock table. -/
def State.init (ε α : Type) : State ε α := ⟨LockTable.empty, []⟩

/-- The states the scheduler can reach from the empty lock table. -/
inductive Reachable {ε α : Type} : State ε α → Prop where
  | init : Reachable (State.init ε α)
  | step {s : State ε α} (a : Action ε α) : Reachable s → Reachable (step s a)

/-- Whether a call is inside its critical section for `key`. -/
def Task.inCritical {ε α : Type} (key : Key) (t : Task ε α) : Bool :=
  t.pc.isCritical && decide (t.key = key)

/-- The number of calls that are inside their critical section for `key`. -/
def critCount {ε α : Type} (s : State ε α) (key : Key) : ℕ :=
  s.tasks.countP (Task.inCritical key)

/-- The invariant of the gate: the calls inside their critical section for a
key are at most one, and none when the key is not held. -/
def GateInv {ε α : Type} (s : State ε α) : Prop :=
  ∀ k : Key, critCount s k ≤ if s.locks.held k then 1 else 0

/-- A call that is done carries the outcome of its own critical section. -/
def OutcomeInv {ε α : Type} (s : State ε α) : Prop :=
  ∀ t ∈ s.tasks, ∀ o, t.pc = .done o → o = t.fn ()

/-! ## `updateVariantPrice` (lines 45–73) -/

/-- The `PUT` request sent to the shop: the URL, the variant (sent as
`Number(variantId)`) and the price text. -/
structure PutRequest where
  url : String
  variantId : String
  price : String
  deriving DecidableEq

/-- What the handler reads of a fetch response: `res.ok`, `res.status`,
`res.statusText`, and the outcomes of `res.text()` and `res.json()`. -/
structure FetchResponse where
  ok : Bool
  status : ℕ
  statusText : String
  text : Except JSError String
  json : Except JSError JSVal

/-- The network, seen from the server: the outcome of `getFetch()` and, with
it, of the fetch call for each request. -/
abbrev Remote := Except JSError (PutRequest → Except JSError FetchResponse)

/-- The function `updateVariantPrice(variantId, newPrice)`. -/
def updateVariantPrice (remote : Remote) (variantId : String) (newPrice : JSNum) :
    Except JSError JSVal :=
  match remote with
  | .error e => .error e
  | .ok fetchFn =>
    let url := "https://" ++ SHOPIFY_DOMAIN ++ "/admin/api/" ++ API_VERSION ++
      "/variants/" ++ variantId ++ ".json"
    match fetchFn ⟨url, variantId, toFixed2 newPrice⟩ with
    | .error e => .error e
    | .ok res =>
      if !res.ok then
        match res.text with
        | .error e => .error e
        | .ok text =>
          .error ⟨"Shopify API error: " ++ toString res.status ++ " " ++
            res.statusText ++ " - " ++ text⟩
      else
        match res.json with
        | .error e => .error e
        | .ok json => getProp json "variant"

/-! ## `POST /protection/update` (lines 102–134) -/

/-- The target price computed by the POST handler from a subtotal that passed
the check (lines 110–117). -/
def targetPrice (subtotal : JSNum) : JSNum :=
  if subtotal.lt PROTECTION_THRESHOLD then .fin (217 / 100)
  else parseFloat (.str (toFixed2
    ((subtotal.mul PROTECTION_PERCENT).add PROTECTION_BASE_INCREMENT)))

/-- What a handler does with a request: answer at once, or run a critical section
through the gate and answer from its outcome. -/
inductive Reply where
  | respond (r : Response)
  | gated (key : Key) (fn : Unit → Except JSError JSVal)
      (answer : Except JSError JSVal → Response)

/-- The `try`/`catch` of lines 119–133 after `withLock` has settled: the
committed price of the updated variant, or the message of the error. -/
def updateAnswer (outcome : Except JSError JSVal) : Response :=
  match outcome with
  | .ok updatedVariant =>
    match getProp updatedVariant "price" with
    | .ok price => ⟨200, .updated (parseFloat price)⟩
    | .error err => ⟨500, .error err.message⟩
  | .error err => ⟨500, .error err.message⟩

/-- The handler of `POST /protection/update`; `subtotal` is
`req.body.subtotal`.  The test `typeof subtotal !== 'number'` holds of every
value but a Number. -/
def postProtectionUpdate (remote : Remote) (subtotal : JSVal) : Reply :=
  match subtotal with
  | .num s =>
    if s.lt (.fin 0) then .respond ⟨400, .error "Invalid subtotal"⟩
    else
      .gated PROTECTION_VARIANT_DYNAMIC
        (fun _ => updateVariantPrice remote PROTECTION_VARIANT_DYNAMIC (targetPrice s))
        updateAnswer
  | _ => .respond ⟨400, .error "Invalid subtotal"⟩

/-- A request served from the lock table `locks` while no other call of
`withLock` runs: the response and the lock table left behind.  `none` when
the gate finds the key held and keeps polling. -/
def serve (locks : LockTable) : Reply → Option (Response × LockTable)
  | .respond r => some (r, locks)
  | .gated key fn answer =>
    let s := step (step ⟨locks, []⟩ (.call key fn)) (.settle 0)
    match s.tasks with
    | [⟨_, _, .done outcome⟩] => some (answer outcome, s.locks)
    | _ => none

/-- A schedule run from a state, one atomic step after the other. -/
def run {ε α : Type} (s : State ε α) (schedule : List (Action ε α)) : State ε α :=
  schedule.foldl step s

/-! ## Sample schedules -/

/-- Two calls on key `a` and a failing one on key `b`; the first settles and
the timer of the second fires. -/
def sampleSchedule : List (Action String ℕ) :=
  [.call "a" (fun _ => .ok 1), .call "a" (fun _ => .ok 2),
    .call "b" (fun _ => .error "boom"), .settle 0, .wake 1]

/-- A call on key `a` whose critical section throws, and a second call on `a`
made while the first is in its critical section. -/
def failingSchedule : List (Action String ℕ) :=
  [.call "a" (fun _ => .error "boom"), .call "a" (fun _ => .ok 2)]

/-! ## Sample remotes -/

/-- A network on which every fetch call fails. -/
def shopUnreachable : Remote := .ok (fun _ => .error ⟨"network failure"⟩)

theorem digitChar_spec (d : ℕ) (h : d < 10) :
    (digitChar d).isDigit = true ∧ (digitChar d).toNat - 48 = d := by
  interval_cases d <;> exact ⟨by decide, by decide⟩

theorem isDigit_bounds (c : Char) (h : c.isDigit = true) : 48 ≤ c.toNat ∧ c.toNat ≤ 57 := by
  simp only [Char.isDigit, Bool.and_eq_true, decide_eq_true_eq] at h
  exact ⟨h.1, h.2⟩

theorem isWhiteSpace_of_isDigit (c : Char) (h : c.isDigit = true) : isWhiteSpace c = false := by
  have hb := isDigit_bounds c h
  simp only [isWhiteSpace, List.contains_eq_any_beq, List.any_cons, List.any_nil,
    Bool.or_false, Bool.or_eq_false_iff, beq_eq_false_iff_ne, ne_eq]
  omega

theorem digitsVal_snoc (ds : List Char) (c : Char) :
    digitsVal (ds ++ [c]) = 10 * digitsVal ds + (c.toNat - 48) := by
  simp [digitsVal, List.foldl_append]

theorem natToCharsAux_spec (fuel : ℕ) : ∀ (n : ℕ) (acc : List Char), n < fuel →
    ∃ ds, natToCharsAux fuel n acc = ds ++ acc ∧ ds ≠ [] ∧
      (∀ c ∈ ds, c.isDigit = true) ∧ digitsVal ds = n := by
  induction fuel with
  | zero => intro n acc h; omega
  | succ fuel ih =>
    intro n acc h
    by_cases hn : n < 10
    · refine ⟨[digitChar n], ?_, by simp, ?_, ?_⟩
      · simp [natToCharsAux, hn]
      · intro c hc
        simp only [List.mem_singleton] at hc
        subst hc
        exact (digitChar_spec n hn).1
      · simpa [digitsVal] using (digitChar_spec n hn).2
    · obtain ⟨ds, h1, _, h3, h4⟩ := ih (n / 10) (digitChar (n % 10) :: acc) (by omega)
      have hm := digitChar_spec (n % 10) (Nat.mod_lt _ (by norm_num))
      refine ⟨ds ++ [digitChar (n % 10)], ?_, by simp, ?_, ?_⟩
      · simp [natToCharsAux, hn, h1]
      · intro c hc
        rcases List.mem_append.mp hc with hc | hc
        · exact h3 c hc
        · simp only [List.mem_singleton] at hc
          subst hc
          exact hm.1
      · rw [digitsVal_snoc, h4, hm.2]
        omega

theorem natToChars_spec (n : ℕ) :
    ∃ ds, natToChars n = ds ∧ ds ≠ [] ∧ (∀ c ∈ ds, c.isDigit = true) ∧ digitsVal ds = n := by
  obtain ⟨ds, h1, h2, h3, h4⟩ := natToCharsAux_spec (n + 1) n [] (by omega)
  exact ⟨ds, by simpa [natToChars] using h1, h2, h3, h4⟩

theorem takeWhile_digits (ds : List Char) (c : Char) (rest : List Char)
    (hds : ∀ x ∈ ds, x.isDigit = true) (hc : c.isDigit = false) :
    (ds ++ c :: rest).takeWhile Char.isDigit = ds := by
  induction ds with
  | nil => simp [List.takeWhile, hc]
  | cons x xs ih =>
    have hx : x.isDigit = true := hds x (by simp)
    have h := ih (fun y hy => hds y (by simp [hy]))
    simp [List.takeWhile_cons, hx, h]

theorem dropWhile_digits (ds : List Char) (c : Char) (rest : List Char)
    (hds : ∀ x ∈ ds, x.isDigit = true) (hc : c.isDigit = false) :
    (ds ++ c :: rest).dropWhile Char.isDigit = c :: rest := by
  induction ds with
  | nil => simp [List.dropWhile, hc]
  | cons x xs ih =>
    have hx : x.isDigit = true := hds x (by simp)
    have h := ih (fun y hy => hds y (by simp [hy]))
    simp [List.dropWhile_cons, hx, h]

theorem takeWhile_all_digits (ds : List Char) (hds : ∀ x ∈ ds, x.isDigit = true) :
    ds.takeWhile Char.isDigit = ds := by
  induction ds with
  | nil => rfl
  | cons x xs ih =>
    have hx : x.isDigit = true := hds x (by simp)
    simp only [List.takeWhile, hx]
    rw [ih (fun y hy => hds y (by simp [hy]))]

theorem dropWhile_all_digits (ds : List Char) (hds : ∀ x ∈ ds, x.isDigit = true) :
    ds.dropWhile Char.isDigit = [] := by
  induction ds with
  | nil => rfl
  | cons x xs ih =>
    have hx : x.isDigit = true := hds x (by simp)
    simp only [List.dropWhile, hx]
    rw [ih (fun y hy => hds y (by simp [hy]))]

/-- A text that opens with a digit is scanned as an unsigned decimal literal. -/
theorem scanLiteral_digit_head (c : Char) (rest : List Char) (hc : c.isDigit = true) :
    scanLiteral (c :: rest) =
      match scanDecimal (c :: rest) with
      | none => .notNumeric
      | some d => .decimal false d := by
  have hw := isWhiteSpace_of_isDigit c hc
  have hm : c ≠ '-' := by rintro rfl; revert hc; decide
  have hp : c ≠ '+' := by rintro rfl; revert hc; decide
  have hI : c ≠ 'I' := by rintro rfl; revert hc; decide
  have hpre : "Infinity".toList.isPrefixOf (c :: rest) = false := by
    have : "Infinity".toList = 'I' :: "nfinity".toList := by decide
    rw [this]
    simp [List.isPrefixOf, Ne.symm hI]
  simp only [scanLiteral, List.dropWhile, hw, hm, hp, if_false, scanUnsigned, hpre,
    Bool.false_eq_true]

/-- Reading back a fixed-point text `ddd.dd`. -/
theorem scanLiteral_fixed (ds : List Char) (d1 d0 : Char) (hne : ds ≠ [])
    (hds : ∀ x ∈ ds, x.isDigit = true) (h1 : d1.isDigit = true) (h0 : d0.isDigit = true) :
    scanLiteral (ds ++ ['.', d1, d0]) =
      .decimal false ⟨digitsVal ds, digitsVal [d1, d0], 2, 0⟩ := by
  obtain ⟨c, cs, rfl⟩ := List.exists_cons_of_ne_nil hne
  have hc : c.isDigit = true := hds c (by simp)
  have hdot : '.'.isDigit = false := by decide
  have e1 : (c :: cs ++ ['.', d1, d0]).takeWhile Char.isDigit = c :: cs :=
    takeWhile_digits (c :: cs) '.' [d1, d0] hds hdot
  have e2 : (c :: cs ++ ['.', d1, d0]).dropWhile Char.isDigit = ['.', d1, d0] :=
    dropWhile_digits (c :: cs) '.' [d1, d0] hds hdot
  have hfp : ∀ x ∈ [d1, d0], x.isDigit = true := by
    intro x hx
    simp only [List.mem_cons, List.mem_singleton, List.not_mem_nil, or_false] at hx
    rcases hx with rfl | rfl <;> assumption
  have e3 := takeWhile_all_digits [d1, d0] hfp
  have e4 := dropWhile_all_digits [d1, d0] hfp
  have hsd : scanDecimal (c :: cs ++ ['.', d1, d0]) =
      some ⟨digitsVal (c :: cs), digitsVal [d1, d0], 2, 0⟩ := by
    simp only [scanDecimal, e1, e2, e3, e4]
    simp [scanExponent]
  have := scanLiteral_digit_head c (cs ++ ['.', d1, d0]) hc
  rw [List.cons_append, this, ← List.cons_append, hsd]

/-- Reading back `x.toFixed(2)` for `x ≥ 0` gives the nearest whole number of
cents, as a Number. -/
theorem parseFloatChars_fixed2 (q : ℚ) :
    parseFloatChars (fixed2Chars q) = .fin ((nearestCents q : ℚ) / 100) := by
  obtain ⟨ds, hds, hne, hdig, hval⟩ := natToChars_spec (nearestCents q / 100)
  have h1 := digitChar_spec (nearestCents q / 10 % 10) (Nat.mod_lt _ (by norm_num))
  have h0 := digitChar_spec (nearestCents q % 10) (Nat.mod_lt _ (by norm_num))
  have hfrac : digitsVal [digitChar (nearestCents q / 10 % 10), digitChar (nearestCents q % 10)]
      = nearestCents q % 100 := by
    simp only [digitsVal, List.foldl, h1.2, h0.2]
    omega
  rw [parseFloatChars, fixed2Chars, hds, scanLiteral_fixed ds _ _ hne hdig h1.1 h0.1, hfrac, hval]
  simp only [Literal.value, Decimal.value, Bool.false_eq_true, if_false, zpow_zero, mul_one]
  congr 1
  have hdm : nearestCents q = 100 * (nearestCents q / 100) + nearestCents q % 100 :=
    (Nat.div_add_mod _ _).symm
  have hq : (nearestCents q : ℚ) =
      100 * ((nearestCents q / 100 : ℕ) : ℚ) + ((nearestCents q % 100 : ℕ) : ℚ) := by
    exact_mod_cast hdm
  rw [hq]
  norm_num
  ring

/-! ## Facts about the price computation -/

theorem parseFloat_toFixed2 (q : ℚ) (hq : 0 ≤ q) :
    parseFloat (.str (toFixed2 (.fin q))) = .fin ((nearestCents q : ℚ) / 100) := by
  have h : ¬ q < 0 := not_lt.mpr hq
  simp only [toFixed2, h, if_false, parseFloat]
  exact parseFloatChars_fixed2 q

theorem nearestCents_mono {q r : ℚ} (h : q ≤ r) : nearestCents q ≤ nearestCents r := by
  unfold nearestCents
  exact Int.toNat_le_toNat (Int.floor_mono (by linarith))

theorem percentPrice_eq (f : JSNum → JSNum) (s : ℚ) (hs : 100 ≤ s)
    (hf : f = quotePrice ∨ f = targetPrice) :
    f (.fin s) = .fin ((nearestCents (s * (3 / 100) + 1 / 100) : ℚ) / 100) := by
  have hlt : ¬ s < 100 := not_lt.mpr hs
  have hq : (0 : ℚ) ≤ s * (3 / 100) + 1 / 100 := by linarith
  rcases hf with rfl | rfl
  · simp only [quotePrice, PROTECTION_THRESHOLD, JSNum.lt, hlt, decide_False,
      Bool.false_eq_true, if_false, PROTECTION_PERCENT, PROTECTION_BASE_INCREMENT,
      JSNum.mul, JSNum.add]
    exact parseFloat_toFixed2 _ hq
  · simp only [targetPrice, PROTECTION_THRESHOLD, JSNum.lt, hlt, decide_False,
      Bool.false_eq_true, if_false, PROTECTION_PERCENT, PROTECTION_BASE_INCREMENT,
      JSNum.mul, JSNum.add]
    exact parseFloat_toFixed2 _ hq

theorem fixedPrice_eq (f : JSNum → JSNum) (s : ℚ) (hs : s < 100)
    (hf : f = quotePrice ∨ f = targetPrice) : f (.fin s) = .fin (217 / 100) := by
  rcases hf with rfl | rfl
  · simp [quotePrice, PROTECTION_THRESHOLD, JSNum.lt, hs]
  · simp [targetPrice, PROTECTION_THRESHOLD, JSNum.lt, hs]

theorem get_of_valid (query : JSVal) (s : ℚ) (hq : parseFloat query = .fin s) (hs : 0 ≤ s) :
    getProtectionPrice query = ⟨200, .price (quotePrice (.fin s))⟩ := by
  have h : ¬ s < 0 := not_lt.mpr hs
  simp [getProtectionPrice, hq, JSNum.isNaN, JSNum.lt, h]

theorem post_of_valid (remote : Remote) (s : ℚ) (hs : 0 ≤ s) :
    postProtectionUpdate remote (.num (.fin s)) =
      .gated PROTECTION_VARIANT_DYNAMIC
        (fun _ => updateVariantPrice remote PROTECTION_VARIANT_DYNAMIC (targetPrice (.fin s)))
        updateAnswer := by
  have h : ¬ s < 0 := not_lt.mpr hs
  simp [postProtectionUpdate, JSNum.lt, h]

theorem nearestCents_threshold : nearestCents (100 * (3 / 100) + 1 / 100) = 301 := by
  norm_num [nearestCents]
  rfl

/-- Reading a text whose numeric prefix is an unsigned decimal literal. -/
theorem parseFloat_of_scan (text : String) (d : Decimal) (q : ℚ)
    (hscan : scanLiteral text.toList = .decimal false d) (hval : d.value = q) :
    parseFloat (.str text) = .fin q := by
  simp only [parseFloat, parseFloatChars, hscan, Literal.value, Bool.false_eq_true, if_false,
    hval]

theorem get_of_nan (query : JSVal) (h : parseFloat query = .nan) :
    getProtectionPrice query = ⟨400, .error "Invalid subtotal"⟩ := by
  simp [getProtectionPrice, h, JSNum.isNaN]

theorem get_of_negative (query : JSVal) (h : (parseFloat query).lt (.fin 0) = true) :
    getProtectionPrice query = ⟨400, .error "Invalid subtotal"⟩ := by
  simp [getProtectionPrice, h]

theorem get_of_passed (query : JSVal) (h1 : parseFloat query ≠ .nan)
    (h2 : (parseFloat query).lt (.fin 0) = false) :
    getProtectionPrice query = ⟨200, .price (quotePrice (parseFloat query))⟩ := by
  have : (parseFloat query).isNaN = false := by
    cases hq : parseFloat query <;> simp_all [JSNum.isNaN]
  simp [getProtectionPrice, h2, this]

theorem quotePrice_posInf : quotePrice .posInf = .posInf := by
  have h : (3 : ℚ) / 100 ≠ 0 := by norm_num
  have h2 : (0 : ℚ) < 3 / 100 := by norm_num
  simp only [quotePrice, PROTECTION_THRESHOLD, JSNum.lt, Bool.false_eq_true, if_false,
    PROTECTION_PERCENT, JSNum.mul, JSNum.ofSign, h, h2, if_true, PROTECTION_BASE_INCREMENT,
    JSNum.add, toFixed2]
  decide

/-! ## Facts about the gate -/

section Gate

variable {ε α : Type}

theorem held_set_same (locks : LockTable) (k : Key) : (locks.set k true).held k = true := by
  simp [LockTable.held, LockTable.set]

theorem set_other (locks : LockTable) (k k2 : Key) (v : Bool) (h : k2 ≠ k) :
    (locks.set k v) k2 = locks k2 := by
  simp [LockTable.set, h]

theorem delete_same (locks : LockTable) (k : Key) : (locks.delete k) k = none := by
  simp [LockTable.delete]

theorem delete_other (locks : LockTable) (k k2 : Key) (h : k2 ≠ k) :
    (locks.delete k) k2 = locks k2 := by
  simp [LockTable.delete, h]

theorem held_of_eq (l1 l2 : LockTable) (k : Key) (h : l1 k = l2 k) :
    l1.held k = l2.held k := by
  simp [LockTable.held, h]

theorem held_delete_same (locks : LockTable) (k : Key) : (locks.delete k).held k = false := by
  simp [LockTable.held, LockTable.delete]

theorem enter_free (locks : LockTable) (k : Key) (h : locks.held k = false) :
    enter (ε := ε) (α := α) locks k = (locks.set k true, .critical) := by
  simp [enter, h]

theorem enter_held (locks : LockTable) (k : Key) (h : locks.held k = true) :
    enter (ε := ε) (α := α) locks k = (locks, .polling) := by
  simp [enter, h]

theorem enter_locks_other (locks : LockTable) (k k2 : Key) (h : k2 ≠ k) :
    (enter (ε := ε) (α := α) locks k).1 k2 = locks k2 := by
  unfold enter
  split
  · rfl
  · exact set_other locks k k2 true h

theorem step_settle_critical (s : State ε α) (i : ℕ) (t : Task ε α)
    (h : s.tasks[i]? = some t) (hpc : t.pc = .critical) :
    step s (.settle i) =
      ⟨s.locks.delete t.key, s.tasks.set i ⟨t.key, t.fn, .done (t.fn ())⟩⟩ := by
  simp only [step, h, hpc]

theorem step_wake_polling (s : State ε α) (i : ℕ) (t : Task ε α)
    (h : s.tasks[i]? = some t) (hpc : t.pc = .polling) :
    step s (.wake i) =
      ⟨(enter (ε := ε) (α := α) s.locks t.key).1,
        s.tasks.set i ⟨t.key, t.fn, (enter s.locks t.key).2⟩⟩ := by
  simp only [step, h, hpc]

theorem lt_of_getElem? {l : List (Task ε α)} {i : ℕ} {t : Task ε α}
    (h : l[i]? = some t) : i < l.length := by
  by_contra hc
  rw [List.getElem?_eq_none (by omega)] at h
  cases h

theorem getElem?_set_self {l : List (Task ε α)} {i : ℕ} {t : Task ε α} (u : Task ε α)
    (h : l[i]? = some t) : (l.set i u)[i]? = some u := by
  rw [List.getElem?_set_eq_of_lt u (lt_of_getElem? h)]

theorem countP_set_of (p : Task ε α → Bool) (l : List (Task ε α)) (i : ℕ) (t u : Task ε α)
    (h : l[i]? = some t) :
    (l.set i u).countP p = l.countP p - (if p t then 1 else 0) + (if p u then 1 else 0) := by
  have hi := lt_of_getElem? h
  have ht : l[i] = t := by
    rw [List.getElem?_eq_getElem hi] at h
    exact Option.some.inj h
  rw [List.countP_set p l i u hi, ht]

theorem countP_pos_of (p : Task ε α → Bool) (l : List (Task ε α)) (i : ℕ) (t : Task ε α)
    (h : l[i]? = some t) (hp : p t = true) : 0 < l.countP p := by
  have hi := lt_of_getElem? h
  have ht : l[i] = t := by
    rw [List.getElem?_eq_getElem hi] at h
    exact Option.some.inj h
  exact List.countP_pos_iff.mpr ⟨t, ht ▸ List.getElem_mem hi, hp⟩

theorem gateInv_init : GateInv (State.init ε α) := by
  intro k
  simp [critCount, State.init]

theorem inCritical_mk (k key : Key) (fn : Unit → Except ε α) (pc : Pc ε α) :
    Task.inCritical k (⟨key, fn, pc⟩ : Task ε α) = (pc.isCritical && decide (key = k)) := rfl

theorem inCritical_of_pc (k : Key) (t : Task ε α) (c : Bool) (h : t.pc.isCritical = c) :
    Task.inCritical k t = (c && decide (t.key = k)) := by
  simp [Task.inCritical, h]

theorem gateInv_enter (s : State ε α) (hs : GateInv s) (key : Key) (fn : Unit → Except ε α)
    (k : Key) :
    critCount s k +
        (if Task.inCritical k (⟨key, fn, (enter s.locks key).2⟩ : Task ε α) then 1 else 0)
      ≤ if (enter (ε := ε) (α := α) s.locks key).1.held k then 1 else 0 := by
  have hk := hs k
  rw [inCritical_mk]
  by_cases hheld : s.locks.held key = true
  · rw [enter_held _ _ hheld]
    simpa [Pc.isCritical] using hk
  · have hfree : s.locks.held key = false := by simpa using hheld
    rw [enter_free _ _ hfree]
    by_cases e : key = k
    · subst e
      rw [hfree] at hk
      simp only [Bool.false_eq_true, if_false, Nat.le_zero] at hk
      simp [Pc.isCritical, held_set_same, hk]
    · have : (s.locks.set key true).held k = s.locks.held k :=
        held_of_eq _ _ k (set_other _ _ _ _ (Ne.symm e))
      simpa [Pc.isCritical, e, this] using hk

theorem gateInv_step (s : State ε α) (a : Action ε α) (hs : GateInv s) :
    GateInv (step s a) := by
  intro k
  cases a with
  | call key fn =>
    have h := gateInv_enter s hs key fn k
    simp only [step, critCount, List.countP_append, List.countP_cons, List.countP_nil,
      Nat.zero_add] at h ⊢
    exact h
  | wake i =>
    cases hget : s.tasks[i]? with
    | none => simpa [step, hget] using hs k
    | some t =>
      cases hpc : t.pc with
      | critical => simpa [step, hget, hpc] using hs k
      | done o => simpa [step, hget, hpc] using hs k
      | polling =>
        rw [step_wake_polling s i t hget hpc]
        have h := gateInv_enter s hs t.key t.fn k
        have hc := countP_set_of (Task.inCritical k) s.tasks i t
          ⟨t.key, t.fn, (enter s.locks t.key).2⟩ hget
        have hpt : Task.inCritical k t = false := by
          rw [inCritical_of_pc k t false (by rw [hpc]; rfl)]; rfl
        simp only [critCount] at h ⊢
        rw [hc, hpt]
        simp only [Bool.false_eq_true, if_false, Nat.sub_zero]
        exact h
  | settle i =>
    cases hget : s.tasks[i]? with
    | none => simpa [step, hget] using hs k
    | some t =>
      cases hpc : t.pc with
      | polling => simpa [step, hget, hpc] using hs k
      | done o => simpa [step, hget, hpc] using hs k
      | critical =>
        rw [step_settle_critical s i t hget hpc]
        have hk := hs k
        have hc := countP_set_of (Task.inCritical k) s.tasks i t
          ⟨t.key, t.fn, .done (t.fn ())⟩ hget
        have hpu : Task.inCritical k (⟨t.key, t.fn, .done (t.fn ())⟩ : Task ε α) = false := rfl
        have hpt : Task.inCritical k t = decide (t.key = k) := by
          rw [inCritical_of_pc k t true (by rw [hpc]; rfl)]; simp
        simp only [critCount] at hk ⊢
        rw [hc, hpu, hpt]
        by_cases e : t.key = k
        · have hpos := countP_pos_of (Task.inCritical k) s.tasks i t hget
            (by rw [hpt]; simpa using e)
          have hheld : s.locks.held k = true := by
            by_contra hn
            simp only [hn, Bool.false_eq_true, if_false] at hk
            omega
          have hdel : (s.locks.delete t.key).held k = false := by
            rw [e]; exact held_delete_same _ _
          simp only [hheld, if_true] at hk
          simp only [e, decide_True, if_true, hdel, Bool.false_eq_true, if_false]
          omega
        · have : (s.locks.delete t.key).held k = s.locks.held k :=
            held_of_eq _ _ k (delete_other _ _ _ (Ne.symm e))
          simp only [e, decide_False, Bool.false_eq_true, if_false, Nat.sub_zero, this,
            Nat.add_zero]
          exact hk

theorem gateInv_of_reachable (s : State ε α) (h : Reachable s) : GateInv s := by
  induction h with
  | init => exact gateInv_init
  | step a _ ih => exact gateInv_step _ a ih

theorem outcomeInv_set (s : State ε α) (hs : OutcomeInv s) (i : ℕ) (u : Task ε α)
    (hu : ∀ o, u.pc = .done o → o = u.fn ()) (locks : LockTable) :
    OutcomeInv ⟨locks, s.tasks.set i u⟩ := by
  intro t ht o ho
  rcases List.mem_or_eq_of_mem_set ht with h | h
  · exact hs t h o ho
  · subst h
    exact hu o ho

theorem enter_not_done (locks : LockTable) (k : Key) (o : Except ε α) :
    (enter (ε := ε) (α := α) locks k).2 ≠ .done o := by
  unfold enter
  split <;> simp

theorem outcomeInv_step (s : State ε α) (a : Action ε α) (hs : OutcomeInv s) :
    OutcomeInv (step s a) := by
  cases a with
  | call key fn =>
    intro t ht o ho
    simp only [step, List.mem_append, List.mem_singleton] at ht
    rcases ht with h | h
    · exact hs t h o ho
    · subst h
      exact absurd ho (enter_not_done _ _ _)
  | wake i =>
    cases hget : s.tasks[i]? with
    | none => simpa [step, hget] using hs
    | some t =>
      cases hpc : t.pc with
      | critical => simpa [step, hget, hpc] using hs
      | done o => simpa [step, hget, hpc] using hs
      | polling =>
        rw [step_wake_polling s i t hget hpc]
        exact outcomeInv_set s hs i _ (fun o ho => absurd ho (enter_not_done _ _ _)) _
  | settle i =>
    cases hget : s.tasks[i]? with
    | none => simpa [step, hget] using hs
    | some t =>
      cases hpc : t.pc with
      | polling => simpa [step, hget, hpc] using hs
      | done o => simpa [step, hget, hpc] using hs
      | critical =>
        rw [step_settle_critical s i t hget hpc]
        refine outcomeInv_set s hs i _ (fun o ho => ?_) _
        simp only [Pc.done.injEq] at ho
        exact ho.symm

theorem outcomeInv_of_reachable (s : State ε α) (h : Reachable s) : OutcomeInv s := by
  induction h with
  | init => intro t ht; simp [State.init] at ht
  | step a _ ih => exact outcomeInv_step _ a ih

end Gate

section GateFacts

variable {ε α : Type}

theorem reachable_run (s : State ε α) (h : Reachable s) (schedule : List (Action ε α)) :
    Reachable (run s schedule) := by
  induction schedule generalizing s with
  | nil => exact h
  | cons a rest ih => exact ih (step s a) (Reachable.step a h)

theorem two_le_countP (p : Task ε α → Bool) (l : List (Task ε α)) :
    ∀ (i j : ℕ) (a b : Task ε α), i < j → l[i]? = some a → l[j]? = some b →
      p a = true → p b = true → 2 ≤ l.countP p := by
  induction l with
  | nil => intro i j a b _ hi; simp at hi
  | cons x xs ih =>
    intro i j a b hij hi hj ha hb
    cases j with
    | zero => omega
    | succ j =>
      have hj2 : xs[j]? = some b := by simpa using hj
      cases i with
      | zero =>
        have hx : x = a := by simpa using hi
        subst hx
        have := countP_pos_of p xs j b hj2 hb
        simp only [List.countP_cons, ha, if_true]
        omega
      | succ i =>
        have hi2 : xs[i]? = some a := by simpa using hi
        have := ih i j a b (by omega) hi2 hj2 ha hb
        simp only [List.countP_cons]
        omega

theorem index_unique_of_countP_le_one (p : Task ε α → Bool) (l : List (Task ε α))
    (h : l.countP p ≤ 1) (i j : ℕ) (a b : Task ε α) (hi : l[i]? = some a)
    (hj : l[j]? = some b) (ha : p a = true) (hb : p b = true) : i = j := by
  rcases Nat.lt_trichotomy i j with hlt | heq | hgt
  · have := two_le_countP p l i j a b hlt hi hj ha hb
    omega
  · exact heq
  · have := two_le_countP p l j i b a hgt hj hi hb ha
    omega

theorem step_call_tasks (s : State ε α) (key : Key) (fn : Unit → Except ε α) :
    (step s (.call key fn)).tasks = s.tasks ++ [⟨key, fn, (enter s.locks key).2⟩] := rfl

theorem step_call_locks (s : State ε α) (key : Key) (fn : Unit → Except ε α) :
    (step s (.call key fn)).locks = (enter (ε := ε) (α := α) s.locks key).1 := rfl

theorem getElem?_append_last (l : List (Task ε α)) (t : Task ε α) :
    (l ++ [t])[l.length]? = some t := by
  simp

end GateFacts

/-! ## The pricing claims -/

/-- C4. Below the threshold the price is fixed: for every subtotal `s` with
`0 ≤ s < 100`, the GET handler answers `200 {price: 2.17}` and the POST handler
hands the target price `2.17` to the remote update, whatever `s` is. -/
theorem C4_fixed_price_below_threshold (s : ℚ) (h0 : 0 ≤ s) (h1 : s < 100) :
    (∀ query, parseFloat query = .fin s →
      getProtectionPrice query = ⟨200, .price (.fin (217 / 100))⟩) ∧
    targetPrice (.fin s) = .fin (217 / 100) ∧
    (∀ remote, postProtectionUpdate remote (.num (.fin s)) =
      .gated PROTECTION_VARIANT_DYNAMIC
        (fun _ => updateVariantPrice remote PROTECTION_VARIANT_DYNAMIC (.fin (217 / 100)))
        updateAnswer) := by
  refine ⟨?_, fixedPrice_eq _ s h1 (Or.inr rfl), ?_⟩
  · intro query hq
    rw [get_of_valid query s hq h0, fixedPrice_eq _ s h1 (Or.inl rfl)]
  · intro remote
    rw [post_of_valid remote s h0, fixedPrice_eq _ s h1 (Or.inr rfl)]

theorem C4_fixed_price_below_threshold_witness :
    getProtectionPrice (.str "50") = ⟨200, .price (.fin (217 / 100))⟩ ∧
    targetPrice (.fin 50) = .fin (217 / 100) :=
  ⟨(C4_fixed_price_below_threshold 50 (by norm_num) (by norm_num)).1 (.str "50")
      (parseFloat_of_scan "50" ⟨50, 0, 0, 0⟩ 50 (by decide) (by norm_num [Decimal.value])),
    (C4_fixed_price_below_threshold 50 (by norm_num) (by norm_num)).2.1⟩

/-- C10. The price is monotone in the subtotal and never below the fixed price:
for finite subtotals `0 ≤ s1 ≤ s2` the prices `p1`, `p2` that the GET handler
answers (and that the POST handler takes as targets) satisfy `p1 ≤ p2` and
`2.17 ≤ p1`; across the threshold the price goes from `2.17` to at least
`3.01`. -/
theorem C10_price_monotone (s1 s2 : ℚ) (h0 : 0 ≤ s1) (h12 : s1 ≤ s2) :
    ∃ p1 p2 : ℚ,
      (∀ query, parseFloat query = .fin s1 →
        getProtectionPrice query = ⟨200, .price (.fin p1)⟩) ∧
      (∀ query, parseFloat query = .fin s2 →
        getProtectionPrice query = ⟨200, .price (.fin p2)⟩) ∧
      targetPrice (.fin s1) = .fin p1 ∧ targetPrice (.fin s2) = .fin p2 ∧
      p1 ≤ p2 ∧ 217 / 100 ≤ p1 ∧
      (s1 < 100 → 100 ≤ s2 → p1 = 217 / 100 ∧ 301 / 100 ≤ p2) := by
  have key : ∀ s : ℚ, 100 ≤ s →
      (301 : ℚ) / 100 ≤ (nearestCents (s * (3 / 100) + 1 / 100) : ℚ) / 100 := by
    intro s hs
    have hm : nearestCents (100 * (3 / 100) + 1 / 100) ≤ nearestCents (s * (3 / 100) + 1 / 100) :=
      nearestCents_mono (by linarith)
    rw [nearestCents_threshold] at hm
    have : (301 : ℚ) ≤ (nearestCents (s * (3 / 100) + 1 / 100) : ℚ) := by exact_mod_cast hm
    linarith
  by_cases c1 : s1 < 100
  · by_cases c2 : s2 < 100
    · refine ⟨217 / 100, 217 / 100, ?_, ?_, fixedPrice_eq _ s1 c1 (Or.inr rfl),
        fixedPrice_eq _ s2 c2 (Or.inr rfl), le_refl _, le_refl _, ?_⟩
      · intro query hq
        rw [get_of_valid query s1 hq h0, fixedPrice_eq _ s1 c1 (Or.inl rfl)]
      · intro query hq
        rw [get_of_valid query s2 hq (by linarith), fixedPrice_eq _ s2 c2 (Or.inl rfl)]
      · intro _ h; exact absurd c2 (not_lt.mpr h)
    · have c2' : 100 ≤ s2 := not_lt.mp c2
      have k2 := key s2 c2'
      refine ⟨217 / 100, _, ?_, ?_, fixedPrice_eq _ s1 c1 (Or.inr rfl),
        percentPrice_eq _ s2 c2' (Or.inr rfl), by linarith, le_refl _, ?_⟩
      · intro query hq
        rw [get_of_valid query s1 hq h0, fixedPrice_eq _ s1 c1 (Or.inl rfl)]
      · intro query hq
        rw [get_of_valid query s2 hq (by linarith), percentPrice_eq _ s2 c2' (Or.inl rfl)]
      · intro _ _; exact ⟨rfl, k2⟩
  · have c1' : 100 ≤ s1 := not_lt.mp c1
    have c2' : 100 ≤ s2 := le_trans c1' h12
    have k1 := key s1 c1'
    have hm : nearestCents (s1 * (3 / 100) + 1 / 100) ≤ nearestCents (s2 * (3 / 100) + 1 / 100) :=
      nearestCents_mono (by linarith)
    have hmq : (nearestCents (s1 * (3 / 100) + 1 / 100) : ℚ) ≤
        (nearestCents (s2 * (3 / 100) + 1 / 100) : ℚ) := by exact_mod_cast hm
    refine ⟨_, _, ?_, ?_, percentPrice_eq _ s1 c1' (Or.inr rfl),
      percentPrice_eq _ s2 c2' (Or.inr rfl), by linarith, by linarith, ?_⟩
    · intro query hq
      rw [get_of_valid query s1 hq h0, percentPrice_eq _ s1 c1' (Or.inl rfl)]
    · intro query hq
      rw [get_of_valid query s2 hq (by linarith), percentPrice_eq _ s2 c2' (Or.inl rfl)]
    · intro h; exact absurd h c1

theorem C10_price_monotone_witness :
    getProtectionPrice (.str "99.99") = ⟨200, .price (.fin (217 / 100))⟩ ∧
    ∃ p2 : ℚ, getProtectionPrice (.str "100") = ⟨200, .price (.fin p2)⟩ ∧
      217 / 100 ≤ p2 ∧ 301 / 100 ≤ p2 := by
  obtain ⟨p1, p2, h1, h2, _, _, h12, _, hj⟩ :=
    C10_price_monotone (9999 / 100) 100 (by norm_num) (by norm_num)
  obtain ⟨e1, e2⟩ := hj (by norm_num) (by norm_num)
  subst e1
  exact ⟨h1 (.str "99.99")
      (parseFloat_of_scan "99.99" ⟨99, 99, 2, 0⟩ _ (by decide) (by norm_num [Decimal.value])),
    p2, h2 (.str "100")
      (parseFloat_of_scan "100" ⟨100, 0, 0, 0⟩ 100 (by decide) (by norm_num [Decimal.value])),
    h12, e2⟩

/-! ## The validation claims -/

/-- C6, as stated, fails at `+Infinity`: the GET handler answers
`200 {price: Infinity}` to the query text `Infinity`, and the POST handler takes
the subtotal `+Infinity` through the gate to the remote update, whose failure
it reports with `500`. -/
theorem C6_counterexample :
    getProtectionPrice (.str "Infinity") = ⟨200, .price .posInf⟩ ∧
    (serve LockTable.empty (postProtectionUpdate shopUnreachable (.num .posInf))).map Prod.fst
      = some ⟨500, .error "network failure"⟩ := by
  constructor
  · have h : parseFloat (.str "Infinity") = .posInf := by decide
    rw [get_of_passed _ (by rw [h]; decide) (by rw [h]; rfl), h, quotePrice_posInf]
  · rfl

/-- C6, amended. Every negative subtotal, `-Infinity` included, is answered
`400 {error}` by both handlers; `NaN` is answered `400` by the GET handler, and
every body value that is not a Number is answered `400` by the POST handler.
A rejected POST answers at once, the same for every remote and with the lock
table untouched: it makes no remote update call. -/
theorem C6_invalid_subtotal_rejected :
    (∀ query, (parseFloat query = .nan ∨ parseFloat query = .negInf ∨
        ∃ q : ℚ, q < 0 ∧ parseFloat query = .fin q) →
      getProtectionPrice query = ⟨400, .error "Invalid subtotal"⟩) ∧
    (∀ (remote : Remote) (s : JSNum), (s = .negInf ∨ ∃ q : ℚ, q < 0 ∧ s = .fin q) →
      postProtectionUpdate remote (.num s) = .respond ⟨400, .error "Invalid subtotal"⟩) ∧
    (∀ (remote : Remote) (v : JSVal), (∀ n, v ≠ .num n) →
      postProtectionUpdate remote v = .respond ⟨400, .error "Invalid subtotal"⟩) ∧
    (∀ (locks : LockTable) (r : Response), serve locks (.respond r) = some (r, locks)) := by
  refine ⟨?_, ?_, ?_, fun _ _ => rfl⟩
  · rintro query (h | h | ⟨q, hq, h⟩)
    · exact get_of_nan query h
    · exact get_of_negative query (by rw [h]; rfl)
    · exact get_of_negative query (by rw [h]; simp [JSNum.lt, hq])
  · rintro remote s (rfl | ⟨q, hq, rfl⟩)
    · rfl
    · simp [postProtectionUpdate, JSNum.lt, hq]
  · intro remote v hv
    cases v with
    | num n => exact absurd rfl (hv n)
    | _ => rfl

theorem C6_invalid_subtotal_rejected_witness :
    getProtectionPrice (.str "-5") = ⟨400, .error "Invalid subtotal"⟩ ∧
    getProtectionPrice (.str "-Infinity") = ⟨400, .error "Invalid subtotal"⟩ ∧
    getProtectionPrice .undefined = ⟨400, .error "Invalid subtotal"⟩ ∧
    postProtectionUpdate shopUnreachable (.num (.fin (-5))) =
      .respond ⟨400, .error "Invalid subtotal"⟩ ∧
    postProtectionUpdate shopUnreachable (.str "5") =
      .respond ⟨400, .error "Invalid subtotal"⟩ := by
  have h5 : parseFloat (.str "-5") = .fin (-5) := by
    have hs : scanLiteral "-5".toList = .decimal true ⟨5, 0, 0, 0⟩ := by decide
    simp only [parseFloat, parseFloatChars, hs, Literal.value, if_true]
    norm_num [Decimal.value]
  exact ⟨C6_invalid_subtotal_rejected.1 (.str "-5")
      (Or.inr (Or.inr ⟨-5, by norm_num, h5⟩)),
    C6_invalid_subtotal_rejected.1 (.str "-Infinity") (Or.inr (Or.inl (by decide))),
    C6_invalid_subtotal_rejected.1 .undefined (Or.inl rfl),
    C6_invalid_subtotal_rejected.2.1 shopUnreachable (.fin (-5))
      (Or.inr ⟨-5, by norm_num, rfl⟩),
    C6_invalid_subtotal_rejected.2.2.1 shopUnreachable (.str "5") (fun n h => by cases h)⟩

/-- C1. Mutual exclusion of `withLock`: in every state the scheduler can reach
from the empty lock table, by any number of calls in any interleaving, at most
one call is inside its critical section for each key; two calls that are both
inside their critical section for the same key are the same call. -/
theorem C1_mutual_exclusion {ε α : Type} (s : State ε α) (h : Reachable s) (key : Key) :
    critCount s key ≤ 1 ∧
    ∀ (i j : ℕ) (ti tj : Task ε α), s.tasks[i]? = some ti → s.tasks[j]? = some tj →
      ti.pc = .critical → tj.pc = .critical → ti.key = key → tj.key = key → i = j := by
  have hinv := gateInv_of_reachable s h key
  have hle : critCount s key ≤ 1 := by
    refine le_trans hinv ?_
    split <;> omega
  refine ⟨hle, ?_⟩
  intro i j ti tj hi hj hci hcj hki hkj
  exact index_unique_of_countP_le_one (Task.inCritical key) s.tasks hle i j ti tj hi hj
    (by simp [Task.inCritical, hci, hki, Pc.isCritical])
    (by simp [Task.inCritical, hcj, hkj, Pc.isCritical])

theorem C1_mutual_exclusion_witness :
    Reachable (run (State.init String ℕ) sampleSchedule) ∧
    critCount (run (State.init String ℕ) sampleSchedule) "a" ≤ 1 :=
  ⟨reachable_run _ Reachable.init _,
    (C1_mutual_exclusion (run (State.init String ℕ) sampleSchedule)
      (reachable_run _ Reachable.init _) "a").1⟩

/-- C2. The lock is released on every exit path: when a call of `withLock` that
holds its key has its critical section settle, with a value or with an error
alike, the lock table has no entry for the key afterwards and the call is
done; a call of `withLock` on the same key made next enters its critical section
at once, and so does a polling call on that key whose timer fires next. -/
theorem C2_lock_released_on_every_exit {ε α : Type} (s : State ε α) (i : ℕ) (t : Task ε α)
    (hi : s.tasks[i]? = some t) (hpc : t.pc = .critical) :
    (step s (.settle i)).locks t.key = none ∧
    (step s (.settle i)).tasks[i]? = some ⟨t.key, t.fn, .done (t.fn ())⟩ ∧
    (∀ fn : Unit → Except ε α,
      (step (step s (.settle i)) (.call t.key fn)).tasks[s.tasks.length]? =
        some ⟨t.key, fn, .critical⟩) ∧
    (∀ (j : ℕ) (u : Task ε α), (step s (.settle i)).tasks[j]? = some u → u.pc = .polling →
      u.key = t.key →
      (step (step s (.settle i)) (.wake j)).tasks[j]? = some ⟨u.key, u.fn, .critical⟩) := by
  have hstep := step_settle_critical s i t hi hpc
  have hfree : (step s (.settle i)).locks.held t.key = false := by
    rw [hstep]; exact held_delete_same _ _
  refine ⟨by rw [hstep]; exact delete_same _ _, ?_, ?_, ?_⟩
  · rw [hstep]; exact getElem?_set_self _ hi
  · intro fn
    rw [step_call_tasks, enter_free _ _ hfree]
    have hlen : (step s (.settle i)).tasks.length = s.tasks.length := by
      rw [hstep]; simp
    rw [← hlen]
    exact getElem?_append_last _ _
  · intro j u hj hu hk
    rw [step_wake_polling _ j u hj hu, hk, enter_free _ _ hfree]
    exact getElem?_set_self _ hj

theorem C2_lock_released_on_every_exit_witness :
    (step (run (State.init String ℕ) failingSchedule) (.settle 0)).locks "a" = none ∧
    (step (run (State.init String ℕ) failingSchedule) (.settle 0)).tasks[0]? =
      some ⟨"a", fun _ => .error "boom", .done (.error "boom")⟩ ∧
    (step (step (run (State.init String ℕ) failingSchedule) (.settle 0)) (.wake 1)).tasks[1]? =
      some ⟨"a", fun _ => .ok 2, .critical⟩ :=
  have h := C2_lock_released_on_every_exit (run (State.init String ℕ) failingSchedule) 0
    ⟨"a", fun _ => .error "boom", .critical⟩ rfl rfl
  ⟨h.1, h.2.1, h.2.2.2 1 ⟨"a", fun _ => .ok 2, .polling⟩ rfl rfl rfl⟩

/-- C3. `withLock` is transparent to the outcome of its critical section: when
the critical section of a call settles, the call returns the value `fn`
returned, or rethrows the error `fn` threw; a call made while its key is free
runs `fn` and is done with the outcome of `fn` once `fn` settles; and in every
reachable state a call that is done carries exactly the outcome of its own
`fn`, so the gate neither swallows or replaces an error nor raises one of its
own. -/
theorem C3_outcome_transparent {ε α : Type} (s : State ε α) (h : Reachable s) :
    (∀ t ∈ s.tasks, ∀ o, t.pc = .done o → o = t.fn ()) ∧
    (∀ (i : ℕ) (t : Task ε α), s.tasks[i]? = some t → t.pc = .critical →
      (∀ v, t.fn () = .ok v →
        (step s (.settle i)).tasks[i]? = some ⟨t.key, t.fn, .done (.ok v)⟩) ∧
      (∀ e, t.fn () = .error e →
        (step s (.settle i)).tasks[i]? = some ⟨t.key, t.fn, .done (.error e)⟩)) ∧
    (∀ (key : Key) (fn : Unit → Except ε α), s.locks.held key = false →
      (step (step s (.call key fn)) (.settle s.tasks.length)).tasks[s.tasks.length]? =
        some ⟨key, fn, .done (fn ())⟩) := by
  refine ⟨outcomeInv_of_reachable s h, ?_, ?_⟩
  · intro i t hi hpc
    have hstep := step_settle_critical s i t hi hpc
    constructor
    · intro v hv
      rw [hstep, hv]; exact getElem?_set_self _ hi
    · intro e he
      rw [hstep, he]; exact getElem?_set_self _ hi
  · intro key fn hfree
    have hget : (step s (.call key fn)).tasks[s.tasks.length]? =
        some ⟨key, fn, .critical⟩ := by
      rw [step_call_tasks, enter_free _ _ hfree]
      exact getElem?_append_last _ _
    rw [step_settle_critical _ _ _ hget rfl]
    exact getElem?_set_self _ hget

theorem C3_outcome_transparent_witness :
    Reachable (run (State.init String ℕ) failingSchedule) ∧
    (step (run (State.init String ℕ) failingSchedule) (.settle 0)).tasks[0]? =
      some ⟨"a", fun _ => .error "boom", .done (.error "boom")⟩ ∧
    (step (step (State.init String ℕ) (.call "a" (fun _ => .ok 7))) (.settle 0)).tasks[0]? =
      some ⟨"a", fun _ => .ok 7, .done (.ok 7)⟩ :=
  ⟨reachable_run _ Reachable.init _,
    ((C3_outcome_transparent (run (State.init String ℕ) failingSchedule)
      (reachable_run _ Reachable.init _)).2.1 0 ⟨"a", fun _ => .error "boom", .critical⟩
      rfl rfl).2 "boom" rfl,
    (C3_outcome_transparent (State.init String ℕ) Reachable.init).2.2 "a"
      (fun _ => .ok 7) rfl⟩

/-- C9. Keys are independent in the gate: for keys `k1 ≠ k2`, no step of a call
`withLock(k1, fn)` (the call itself, its timer firing, its critical section
settling) changes the lock table entry of `k2`; what the loop head does depends
on the entry of `k1` alone; a call on `k1` whose key is free enters its critical section
at once, whatever the entry of `k2`, and a call that is inside its critical section
for `k2` stays there, so that the two overlap. -/
theorem C9_keys_independent {ε α : Type} (k1 k2 : Key) (hne : k1 ≠ k2) (s : State ε α) :
    (∀ fn : Unit → Except ε α, (step s (.call k1 fn)).locks k2 = s.locks k2) ∧
    (∀ (i : ℕ) (t : Task ε α), s.tasks[i]? = some t → t.key = k1 →
      (step s (.wake i)).locks k2 = s.locks k2 ∧
      (step s (.settle i)).locks k2 = s.locks k2) ∧
    (∀ locks2 : LockTable, locks2 k1 = s.locks k1 →
      (enter (ε := ε) (α := α) locks2 k1).2 = (enter (ε := ε) (α := α) s.locks k1).2) ∧
    (∀ fn : Unit → Except ε α, s.locks.held k1 = false →
      (step s (.call k1 fn)).tasks[s.tasks.length]? = some ⟨k1, fn, .critical⟩ ∧
      (step s (.call k1 fn)).locks.held k2 = s.locks.held k2 ∧
      ∀ (j : ℕ) (u : Task ε α), s.tasks[j]? = some u → u.pc = .critical → u.key = k2 →
        (step s (.call k1 fn)).tasks[j]? = some u) := by
  have hne2 : k2 ≠ k1 := Ne.symm hne
  refine ⟨?_, ?_, ?_, ?_⟩
  · intro fn
    rw [step_call_locks]
    exact enter_locks_other _ _ _ hne2
  · intro i t hi hk
    subst hk
    constructor
    · cases hpc : t.pc with
      | polling =>
        rw [step_wake_polling s i t hi hpc]
        exact enter_locks_other _ _ _ hne2
      | critical => simp [step, hi, hpc]
      | done o => simp [step, hi, hpc]
    · cases hpc : t.pc with
      | critical =>
        rw [step_settle_critical s i t hi hpc]
        exact delete_other _ _ _ hne2
      | polling => simp [step, hi, hpc]
      | done o => simp [step, hi, hpc]
  · intro locks2 h
    have hh := held_of_eq locks2 s.locks k1 h
    simp only [enter, hh]
    split <;> rfl
  · intro fn hfree
    refine ⟨?_, ?_, ?_⟩
    · rw [step_call_tasks, enter_free _ _ hfree]
      exact getElem?_append_last _ _
    · rw [step_call_locks]
      exact held_of_eq _ _ k2 (enter_locks_other _ _ _ hne2)
    · intro j u hj _ _
      rw [step_call_tasks, List.getElem?_append_left (lt_of_getElem? hj)]
      exact hj

theorem C9_keys_independent_witness :
    (step (run (State.init String ℕ) failingSchedule) (.call "b" (fun _ => .ok 3))).locks "a"
      = (run (State.init String ℕ) failingSchedule).locks "a" ∧
    (step (run (State.init String ℕ) failingSchedule) (.call "b" (fun _ => .ok 3))).tasks[2]?
      = some ⟨"b", fun _ => .ok 3, .critical⟩ ∧
    (step (run (State.init String ℕ) failingSchedule) (.call "b" (fun _ => .ok 3))).tasks[0]?
      = some ⟨"a", fun _ => .error "boom", .critical⟩ :=
  have h := C9_keys_independent (ε := String) (α := ℕ) "b" "a" (by decide)
    (run (State.init String ℕ) failingSchedule)
  ⟨h.1 (fun _ => .ok 3),
    (h.2.2.2 (fun _ => .ok 3) rfl).1,
    (h.2.2.2 (fun _ => .ok 3) rfl).2.2 0 ⟨"a", fun _ => .error "boom", .critical⟩ rfl rfl rfl⟩

/-! ## The update handler -/

theorem sampleSchedule_overlap :
    critCount (run (State.init String ℕ) sampleSchedule) "a" = 1 ∧
    critCount (run (State.init String ℕ) sampleSchedule) "b" = 1 ∧
    (run (State.init String ℕ) sampleSchedule).tasks.map (fun t => (t.key, t.pc.isCritical))
      = [("a", false), ("a", true), ("b", true)] ∧
    (run (State.init String ℕ) sampleSchedule).locks "a" = some true ∧
    (run (State.init String ℕ) failingSchedule).tasks.map (fun t => (t.key, t.pc.isCritical))
      = [("a", true), ("a", false)] ∧
    (run (State.init String ℕ) (failingSchedule ++ [.wake 1, .wake 1])).tasks.map
      (fun t => (t.key, t.pc.isCritical)) = [("a", true), ("a", false)] := by
  decide


theorem scanLiteral_samples :
    scanLiteral " -1.5e2x".toList = .decimal true ⟨1, 5, 1, 2⟩ ∧
    scanLiteral "1.e5".toList = .decimal false ⟨1, 0, 0, 5⟩ ∧
    scanLiteral "1e+".toList = .decimal false ⟨1, 0, 0, 0⟩ ∧
    scanLiteral ".5".toList = .decimal false ⟨0, 5, 1, 0⟩ ∧
    scanLiteral "0x10".toList = .decimal false ⟨0, 0, 0, 0⟩ ∧
    scanLiteral "-Infinityx".toList = .infinity true ∧
    scanLiteral "abc".toList = .notNumeric ∧
    scanLiteral ".e5".toList = .notNumeric ∧
    scanLiteral "- 5".toList = .notNumeric ∧
    scanLiteral "".toList = .notNumeric := by
  decide

theorem toFixed2_samples :
    toFixed2 (.fin (301 / 100)) = "3.01" ∧ toFixed2 (.fin (-1 / 1000)) = "-0.00" ∧
    toFixed2 (.fin (1005 / 1000)) = "1.01" ∧ toFixed2 (.fin 12) = "12.00" ∧
    toFixed2 .nan = "NaN" ∧ toFixed2 .posInf = "Infinity" := by
  have h1 : nearestCents (301 / 100) = 301 := by norm_num [nearestCents]; rfl
  have h2 : nearestCents (1 / 1000) = 0 := by norm_num [nearestCents]
  have h3 : nearestCents (1005 / 1000) = 101 := by norm_num [nearestCents]; rfl
  have h4 : nearestCents 12 = 1200 := by norm_num [nearestCents]; rfl
  have e2 : -(-1 / 1000 : ℚ) = 1 / 1000 := by norm_num
  have n1 : ¬ ((301 : ℚ) / 100 < 0) := by norm_num
  have n2 : ((-1 : ℚ) / 1000 < 0) := by norm_num
  have n3 : ¬ ((1005 : ℚ) / 1000 < 0) := by norm_num
  have n4 : ¬ ((12 : ℚ) < 0) := by norm_num
  simp only [toFixed2, fixed2Chars, n1, n2, n3, n4, if_true, if_false, e2, h1, h2, h3, h4]
  decide

end ShippingFee
